import Mathlib

/-!
Shallow embedding of the betrecorder repository's polling / change-detection /
durable-append pipeline, verified against its natural-language specification.

Source files embedded here:
  * `src/betfair_api.py` — class `BetfairAPI`: `logout`, `list_events`,
    `poll_market_book`, `poll_new_events`, `_load_known_event_ids`,
    `_save_known_event_ids`;
  * `test_betfair_racing_influx_copy.py` — `log_market_data` (the poll loop with
    403 re-authentication and the `terminate_event` cancellation flag);
  * `poll_tick.py` — `main` (the double `logout()` call sites).

Python dictionaries (the results of `vars(market_book)` and the literal record
dictionaries) are modelled as association lists with first-occurrence lookup;
Python dict equality is key-set plus pointwise value equality.  Exceptions are
modelled explicitly: a fetch outcome is either a value or a raised error, and a
function that Python lets an exception escape from returns a `raised` outcome.
-/

namespace BetRecorder

/-- JSON-like field values appearing in the payload dictionaries the scripts
compare and serialize. -/
inductive JVal
  | str (s : String)
  | num (n : Int)
  | bool (b : Bool)
  | null
deriving DecidableEq

/-- A Python dictionary with string keys, as an association list (keys unique by
construction in all states the embedded code builds; lookup takes the first
occurrence, matching dict semantics). -/
abbrev Dict := List (String × JVal)

/-- Lookup `d[k]`, `none` when the key is absent. -/
def dlookup : Dict → String → Option JVal
  | [], _ => none
  | (k', v) :: rest, k => if k' = k then some v else dlookup rest k

/-- Membership `k in d` for a Python dict. -/
def hasKey (d : Dict) (k : String) : Bool :=
  (dlookup d k).isSome

/-- Key list `list(d.keys())`. -/
def dkeys (d : Dict) : List String :=
  d.map (fun kv => kv.1)

/-- Assignment `d[k] = v`: replace the binding if the key is present, else append it at the
end (Python dicts preserve insertion order). -/
def dinsert : Dict → String → JVal → Dict
  | [], k, v => [(k, v)]
  | (k', v') :: rest, k, v =>
      if k' = k then (k, v) :: rest else (k', v') :: dinsert rest k v

/-- Python `==` on dicts: the two mappings agree on every key of either. -/
def dictBEq (a b : Dict) : Bool :=
  (dkeys a ++ dkeys b).all (fun k => decide (dlookup a k = dlookup b k))

/-! ## `BetfairAPI.poll_market_book` (src/betfair_api.py lines 116-169)

One loop iteration: call `list_market_book`; on a `BetfairError` or any other
exception, log and fall through to the sleep; on a non-empty result, take
`current_data = vars(market_books[0])`, compare `current_data != last_data`
(with `last_data is None` on the first tick), and if it differs: set
`current_data['timestamp']`, append `json.dumps(current_data) + '\n'` to the
output file, and set `last_data = current_data` (the dict that now carries the
`'timestamp'` key).  The model's `file` holds one entry per appended line. -/

/-- Outcome of `self.client.betting.list_market_book(...)` on one tick: each
returned book is represented by its `vars(..)` dictionary. -/
inductive MBFetch
  | ok (books : List Dict)
  | errBetfair (msg : String)
  | errOther (msg : String)
deriving DecidableEq

/-- Input of one `poll_market_book` tick: the fetch outcome and the value
`datetime.utcnow().isoformat()` takes on that tick. -/
structure MBTick where
  fetch : MBFetch
  ts : String
deriving DecidableEq

/-- In-memory and on-disk state of `poll_market_book`: the `last_data` variable
and the lines of `output_file` (one `Dict` per `json.dumps(...) + '\n'` line
written so far, oldest first). -/
structure MBState where
  lastData : Option Dict
  file : List Dict
deriving DecidableEq

/-- One iteration of the `while True` body of `poll_market_book`. -/
def pollMarketBookTick (st : MBState) (t : MBTick) : MBState :=
  match t.fetch with
  | .errBetfair _ => st
  | .errOther _ => st
  | .ok [] => st
  | .ok (book :: _) =>
      let currentData := book
      let changed : Bool :=
        match st.lastData with
        | none => true
        | some ld => ! dictBEq currentData ld
      if changed then
        let cd := dinsert currentData "timestamp" (.str t.ts)
        { lastData := some cd, file := st.file ++ [cd] }
      else st

/-- A finite run of `poll_market_book`'s loop over the given tick inputs. -/
def pollMarketBookRun (st : MBState) (ticks : List MBTick) : MBState :=
  ticks.foldl pollMarketBookTick st

/-- Initial state of a `poll_market_book` run: `last_data = None`, with the
output file holding whatever lines `f0` it already had (the file is opened in
append mode). -/
def mbInit (f0 : List Dict) : MBState :=
  { lastData := none, file := f0 }

/-! ## `log_market_data` (test_betfair_racing_influx_copy.py lines 170-232)

The loop `while not terminate_event.is_set(): try: ...`:
  * the cancellation flag is read once, at the top of each iteration;
  * a successful `list_market_book` tick writes one InfluxDB point when the
    first book's `market_data.get('totalMatched', 0) > 0`;
  * after the (possibly skipped) write, `market_start_time is None` or
    `datetime.utcnow() >= market_start_time` break out of the loop;
  * a `BetfairError` whose text contains `'403'` triggers one
    `handle_session_error(api, logger)` call and the loop continues;
  * any other `BetfairError` is logged and re-raised: it propagates out of
    the loop (the `finally` block then logs out).
A run is driven by a finite list of tick inputs; exhausting them while the
loop would keep going is reported as `fuelOut`. -/

/-- The first list is an initial segment of the second. -/
def charsStartWith : List Char → List Char → Bool
  | [], _ => true
  | _ :: _, [] => false
  | a :: as, b :: bs => a == b && charsStartWith as bs

/-- The first list occurs contiguously inside the second. -/
def charsContain (needle : List Char) : List Char → Bool
  | [] => charsStartWith needle []
  | b :: bs => charsStartWith needle (b :: bs) || charsContain needle bs

/-- Test `'403' in str(e)`: the error text contains the substring "403". -/
def contains403 (s : String) : Bool :=
  charsContain "403".toList s.toList

/-- Outcome of the fetch call on one `log_market_data` tick. -/
inductive LMFetch
  | ok (books : List Dict)
  | errBetfair (msg : String)
deriving DecidableEq

/-- Input of one `log_market_data` tick: the cancellation flag as seen by the
`while` condition, the fetch outcome, and the two market-start-time tests of
that iteration. -/
structure LMTick where
  cancelAtTop : Bool
  fetch : LMFetch
  startTimeNone : Bool
  startReached : Bool
deriving DecidableEq

/-- How a finite `log_market_data` run ended. -/
inductive LMExit
  | fuelOut
  | cancelled
  | startBreak
  | raised (msg : String)
deriving DecidableEq

/-- Observable result of a `log_market_data` run: how many
`handle_session_error` re-authentications were attempted, how many InfluxDB
points were written, how many tick bodies began executing, and how the loop
ended. -/
structure LMResult where
  reauths : Nat
  points : Nat
  ticksStarted : Nat
  exit : LMExit
deriving DecidableEq

/-- Check `market_data.get('totalMatched', 0) > 0` on the first returned book. -/
def totalMatchedPos (d : Dict) : Bool :=
  match dlookup d "totalMatched" with
  | some (.num n) => 0 < n
  | _ => false

/-- The `log_market_data` loop over the given tick inputs, carrying the
re-authentication count, point count and started-tick count. -/
def logMarketDataRun : List LMTick → Nat → Nat → Nat → LMResult
  | [], r, p, n => ⟨r, p, n, .fuelOut⟩
  | t :: rest, r, p, n =>
      if t.cancelAtTop then ⟨r, p, n, .cancelled⟩
      else
        match t.fetch with
        | .errBetfair msg =>
            if contains403 msg then logMarketDataRun rest (r + 1) p (n + 1)
            else ⟨r, p, n + 1, .raised msg⟩
        | .ok books =>
            let p' :=
              match books with
              | [] => p
              | b :: _ => if totalMatchedPos b then p + 1 else p
            if t.startTimeNone then ⟨r, p', n + 1, .startBreak⟩
            else if t.startReached then ⟨r, p', n + 1, .startBreak⟩
            else logMarketDataRun rest r p' (n + 1)

/-- A `log_market_data` run started with zeroed counters. -/
def logMarketData (ticks : List LMTick) : LMResult :=
  logMarketDataRun ticks 0 0 0

/-! ## Shutdown timing of `log_market_data`

The `terminate_event` flag is observed only by the `while not
terminate_event.is_set()` check at the top of each iteration; the body ends in
`time.sleep(1)`, a sleep that does not observe the event (it is not
`terminate_event.wait(1)`).  Taking a tick's in-flight work as instantaneous
and the sleep as `s` time units, the top-of-tick checks happen at absolute
times `0, s, 2*s, ...`; when the event is set at absolute time `t`, the loop
returns at the first check time that is `≥ t`. -/

/-- Absolute time at which the loop returns after the cancellation flag is set
at time `t`, with sleep length `s`, simulated from the current check time
`now` with the given fuel. -/
def cancelReturnTime (s t : Nat) : Nat → Nat → Nat
  | 0, now => now
  | fuel + 1, now => if t ≤ now then now else cancelReturnTime s t fuel (now + s)

/-- Shutdown latency: time from setting the cancellation flag at time `t`
until the loop returns (sleep length `s`). -/
def shutdownLatency (s t : Nat) : Nat :=
  cancelReturnTime s t (t + 1) 0 - t

/-! ## `BetfairAPI.logout` (src/betfair_api.py lines 55-62) and
`poll_tick.main` (poll_tick.py lines 5-26)

`logout` calls `self.client.logout()` inside `try/except BetfairError/except
Exception`: every exception is caught and logged, none propagates.  There is
no guard flag: each call performs the underlying `client.logout()` again.
`poll_tick.main` runs `api.poll_market_book(...)` — whose `finally` block
calls `self.logout()` — and then calls `api.logout()` once more in its own
`finally`, so the underlying logout is performed twice on the normal path. -/

/-- State of the session held by a `BetfairAPI` instance, with a counter of
how many times `client.logout()` has been invoked on it. -/
structure Session where
  loggedIn : Bool
  clientLogoutCalls : Nat
deriving DecidableEq

/-- How the underlying `client.logout()` call behaves when invoked. -/
inductive ClientBehavior
  | succeeds
  | raisesBetfair
  | raisesOther
deriving DecidableEq

/-- Call `self.client.logout()`: the call always happens (counter increments); on
success the session is released, otherwise an exception is raised. -/
def clientLogout (s : Session) (b : ClientBehavior) : Session × Option String :=
  match b with
  | .succeeds => ({ loggedIn := false, clientLogoutCalls := s.clientLogoutCalls + 1 }, none)
  | .raisesBetfair => ({ s with clientLogoutCalls := s.clientLogoutCalls + 1 }, some "BetfairError")
  | .raisesOther => ({ s with clientLogoutCalls := s.clientLogoutCalls + 1 }, some "Exception")

/-- Method `BetfairAPI.logout`: the `client.logout()` call wrapped in
`try/except BetfairError/except Exception`, both handlers only log.  The
second component is the exception propagated to the caller. -/
def apiLogout (s : Session) (b : ClientBehavior) : Session × Option String :=
  match clientLogout s b with
  | (s', _) => (s', none)

/-- Function `poll_tick.main` on the normal shutdown path: `poll_market_book`'s
`finally` calls `self.logout()`, then `main`'s own `finally` calls
`api.logout()` again; `b1`, `b2` are the behaviors of the two underlying
`client.logout()` calls. -/
def pollTickMain (s : Session) (b1 b2 : ClientBehavior) : Session :=
  (apiLogout (apiLogout s b1).1 b2).1

/-! ## `_load_known_event_ids` / `_save_known_event_ids`
(src/betfair_api.py lines 228-257)

`_load_known_event_ids` checks `os.path.exists`, then runs
`set(json.load(f))` guarded only by `except json.JSONDecodeError`.  So: a
missing file or unparseable content gives the empty set; a JSON array of
strings gives the set of its elements; but an OS-level read failure, or valid
JSON that is not iterable (e.g. a number), raises out of the method.
`_save_known_event_ids` writes `json.dump(list(ids))`, overwriting the file. -/

/-- The state of `known_events.json` as the load routine can encounter it. -/
inductive StoredFile
  | absent
  | unreadable
  | notJson
  | jsonArr (xs : List String)
  | jsonNum (n : Int)
deriving DecidableEq

/-- Result of calling `_load_known_event_ids`: a set of ids, or an exception
propagated to the caller. -/
inductive LoadOutcome
  | ok (ids : Finset String)
  | raised (exn : String)
deriving DecidableEq

/-- Method `BetfairAPI._load_known_event_ids`. -/
def loadKnownEventIds : StoredFile → LoadOutcome
  | .absent => .ok ∅
  | .unreadable => .raised "OSError"
  | .notJson => .ok ∅
  | .jsonArr xs => .ok xs.toFinset
  | .jsonNum _ => .raised "TypeError"

/-- Method `BetfairAPI._save_known_event_ids`: `json.dump(list(known_event_ids), f)`
over a file opened with mode `'w'`.  Python's `list(set)` enumerates the set
in an unspecified order; the model picks a canonical (sorted) enumeration,
which is immaterial because loading normalizes back to a set. -/
def saveKnownEventIds (ids : Finset String) : StoredFile :=
  .jsonArr (ids.sort (· ≤ ·))

/-- One mark-known step as the event poll loop performs it: insert the id into
the in-memory set (`known_event_ids.update(...)`). -/
def markKnown (ids : Finset String) (id : String) : Finset String :=
  insert id ids

/-- A sequence of mark-known calls starting from an empty set, with the set
saved after the last insertion (each intermediate save is overwritten by the
next, so only the final one is observable). -/
def runMarkKnown (l : List String) : StoredFile :=
  saveKnownEventIds (l.foldl markKnown ∅)

/-! ## `BetfairAPI.list_events` (src/betfair_api.py lines 76-88) and
`BetfairAPI.poll_new_events` (src/betfair_api.py lines 171-226)

`list_events` wraps `self.client.betting.list_events(filter=...)` in
`try/except BetfairError/except Exception`; both handlers log and return
`None`.  `poll_new_events` each tick: `current_events = self.list_events(...)`;
`if current_events:` (so `None` and the empty list take the same no-op branch);
filters out events whose `event.event.id` is already in `known_event_ids`;
if any remain, appends one `json.dumps(event_dict) + '\n'` line per new event
to the output file (all with the same `timestamp`), then updates
`known_event_ids` and calls `_save_known_event_ids`. -/

/-- The fields of a fetched event that `poll_new_events` reads
(`event.event.id`, `.name`, `.country_code`, `.competition_id`,
`event.market_start_time`). -/
structure Event where
  id : String
  name : String
  countryCode : String
  competitionId : String
  marketStartTime : String
deriving DecidableEq

/-- Outcome of the underlying `client.betting.list_events` call. -/
inductive PEFetch
  | ok (events : List Event)
  | err (msg : String)
deriving DecidableEq

/-- Method `BetfairAPI.list_events`: every exception from the client call is caught
and turned into `None` (`none`); a successful call returns the full list. -/
def listEvents : PEFetch → Option (List Event)
  | .ok evs => some evs
  | .err _ => none

/-- The `event_dict` literal built for each new event (line 204-211 of
src/betfair_api.py). -/
def eventDict (e : Event) (ts : String) : Dict :=
  [("event_id", .str e.id), ("event_name", .str e.name),
   ("country_code", .str e.countryCode), ("competition_id", .str e.competitionId),
   ("market_start_time", .str e.marketStartTime), ("timestamp", .str ts)]

/-- Input of one `poll_new_events` tick: the client-call outcome and that
tick's `datetime.utcnow().isoformat()` value. -/
structure PETick where
  fetch : PEFetch
  ts : String
deriving DecidableEq

/-- A durable operation performed by a `poll_new_events` tick, in program
order: one `f.write` of a new event's record line, or one
`_save_known_event_ids` overwrite of `known_events.json`. -/
inductive PEOp
  | writeRecord (id : String)
  | persistKnown (ids : Finset String)
deriving DecidableEq

/-- State of a `poll_new_events` run: the in-memory `known_event_ids` set, the
record lines of `new_events.json` (one `Dict` per line, oldest first), and the
ordered trace of durable operations performed so far this run. -/
structure PEState where
  knownIds : Finset String
  file : List Dict
  trace : List PEOp
deriving DecidableEq

/-- One iteration of the `while True` body of `poll_new_events`. -/
def pollNewEventsTick (st : PEState) (t : PETick) : PEState :=
  match listEvents t.fetch with
  | none => st
  | some evs =>
      if evs = [] then st
      else
        let newEvents := evs.filter (fun e => decide (e.id ∉ st.knownIds))
        if newEvents = [] then st
        else
          let known' := st.knownIds ∪ (newEvents.map Event.id).toFinset
          { knownIds := known',
            file := st.file ++ newEvents.map (fun e => eventDict e t.ts),
            trace := st.trace ++ newEvents.map (fun e => PEOp.writeRecord e.id)
                       ++ [PEOp.persistKnown known'] }

/-- A finite run of `poll_new_events`'s loop over the given tick inputs. -/
def pollNewEventsRun (st : PEState) (ticks : List PETick) : PEState :=
  ticks.foldl pollNewEventsTick st

/-- Initial state of a `poll_new_events` run whose `_load_known_event_ids`
returned `s0` and whose output file already held the lines `f0`. -/
def peInit (s0 : Finset String) (f0 : List Dict) : PEState :=
  { knownIds := s0, file := f0, trace := [] }

/-- The list `p` is an initial segment of `l`: the durable operations already performed
when a crash cuts the run short. -/
def listPre {α : Type} (p l : List α) : Prop :=
  ∃ t, p ++ t = l

/-- The ids whose record line has been written within the trace. -/
def writtenIds : List PEOp → Finset String
  | [] => ∅
  | .writeRecord id :: rest => insert id (writtenIds rest)
  | .persistKnown _ :: rest => writtenIds rest

/-- Contents of `known_events.json` after executing the trace, starting from
on-disk contents `s0`: each `persistKnown` overwrites the file. -/
def storedAfter (s0 : Finset String) (ops : List PEOp) : Finset String :=
  ops.foldl (fun s op => match op with
    | .persistKnown ids => ids
    | .writeRecord _ => s) s0

/-! ## Helper lemmas about the dict model -/

theorem mem_dkeys_of_dlookup_isSome {d : Dict} {k : String}
    (h : (dlookup d k).isSome = true) : k ∈ dkeys d := by
  induction d with
  | nil => simp [dlookup] at h
  | cons kv rest ih =>
      obtain ⟨k', v⟩ := kv
      by_cases hk : k' = k
      · subst hk; simp [dkeys]
      · simp only [dlookup, if_neg hk] at h
        simp [dkeys] at ih ⊢
        exact Or.inr (by simpa [dkeys] using ih h)

theorem dlookup_eq_none_of_hasKey_false {d : Dict} {k : String}
    (h : hasKey d k = false) : dlookup d k = none := by
  unfold hasKey at h
  cases hd : dlookup d k with
  | none => rfl
  | some v => rw [hd] at h; simp at h

theorem hasKey_dinsert (d : Dict) (k : String) (v : JVal) :
    hasKey (dinsert d k v) k = true := by
  induction d with
  | nil => simp [dinsert, hasKey, dlookup]
  | cons kv rest ih =>
      obtain ⟨k', v'⟩ := kv
      by_cases hk : k' = k
      · subst hk; simp [dinsert, hasKey, dlookup]
      · simp only [dinsert, if_neg hk, hasKey, dlookup]
        exact ih

/-- Two dicts that disagree on whether some key is present compare unequal
under Python `==`. -/
theorem dictBEq_eq_false_of_key {a b : Dict} {k : String}
    (ha : hasKey a k = false) (hb : hasKey b k = true) :
    dictBEq a b = false := by
  have hkmem : k ∈ dkeys a ++ dkeys b := by
    have : k ∈ dkeys b := mem_dkeys_of_dlookup_isSome (by simpa [hasKey] using hb)
    exact List.mem_append.mpr (Or.inr this)
  cases hall : dictBEq a b with
  | false => rfl
  | true =>
      exfalso
      have := (List.all_eq_true.mp hall) k hkmem
      have hsome : (dlookup b k).isSome = true := by simpa [hasKey] using hb
      rw [dlookup_eq_none_of_hasKey_false ha] at this
      cases hbk : dlookup b k with
      | none => rw [hbk] at hsome; simp at hsome
      | some v => rw [hbk] at this; simp at this

/-! ## Invariant of `poll_market_book`'s in-memory state -/

/-- Whenever `last_data` is set, it is a previously emitted record and hence
carries the injected `'timestamp'` key. -/
def mbInv (st : MBState) : Prop :=
  ∀ ld, st.lastData = some ld → hasKey ld "timestamp" = true

theorem mbInv_tick {st : MBState} (h : mbInv st) (t : MBTick) :
    mbInv (pollMarketBookTick st t) := by
  unfold pollMarketBookTick
  cases hf : t.fetch with
  | errBetfair msg => exact h
  | errOther msg => exact h
  | ok books =>
      cases books with
      | nil => exact h
      | cons book rest =>
          dsimp only
          split
          · intro ld hld
            simp only [MBState.lastData] at hld
            cases hld
            exact hasKey_dinsert _ _ _
          · exact h

theorem mbInv_run {st : MBState} (h : mbInv st) (ticks : List MBTick) :
    mbInv (pollMarketBookRun st ticks) := by
  induction ticks generalizing st with
  | nil => exact h
  | cons t ticks ih => exact ih (mbInv_tick h t)

/-! ## Claims C1 and C8 -/

/-- Claim C1: (code_bug evidence). The spec's scenario — fetch the payload
`{x: 1}` on ticks 1 and 2 and `{x: 2}` on tick 3 — should produce exactly two
emitted records (`FirstSeen` on tick 1, nothing on tick 2, `Changed` on
tick 3).  The embedded `poll_market_book` appends **three** records: because
`current_data['timestamp'] = ...` mutates the dict *before* it is stored as
`last_data`, the comparison baseline always contains a `'timestamp'` key that
a fresh `vars(market_books[0])` snapshot lacks, so tick 2's structurally
identical payload still compares unequal and is emitted. -/
theorem c1_change_detection_emits_every_tick :
    (pollMarketBookRun (mbInit [])
      [⟨.ok [[("x", .num 1)]], "T1"⟩, ⟨.ok [[("x", .num 1)]], "T2"⟩,
       ⟨.ok [[("x", .num 2)]], "T3"⟩]).file.length = 3 := by
  decide

/-- Claim C8:. Invariant of `poll_market_book`'s in-memory state: after the first
emission the retained baseline `last_data` is the emitted record including the
injected `'timestamp'` key, while a freshly fetched snapshot contains no
`'timestamp'` key; hence every comparison after the first emission is between
mappings with different key sets, and in particular compares unequal. -/
theorem c8_last_data_timestamp_invariant (f0 : List Dict) (ticks : List MBTick)
    (ld book : Dict)
    (hld : (pollMarketBookRun (mbInit f0) ticks).lastData = some ld)
    (hbook : hasKey book "timestamp" = false) :
    hasKey ld "timestamp" = true ∧ dictBEq book ld = false := by
  have hinit : mbInv (mbInit f0) := by intro ld' h; simp [mbInit] at h
  have hts : hasKey ld "timestamp" = true := mbInv_run hinit ticks ld hld
  exact ⟨hts, dictBEq_eq_false_of_key hbook hts⟩

/-- Witness for C8 at a concrete run: after one tick fetching `{x: 1}` at
timestamp `"T1"`, `last_data` is `{x: 1, timestamp: "T1"}`; it carries the
`'timestamp'` key and compares unequal to the fresh snapshot `{x: 1}`. -/
theorem c8_last_data_timestamp_invariant_witness :
    hasKey [("x", JVal.num 1), ("timestamp", JVal.str "T1")] "timestamp" = true ∧
    dictBEq [("x", JVal.num 1)]
      [("x", JVal.num 1), ("timestamp", JVal.str "T1")] = false :=
  c8_last_data_timestamp_invariant [] [⟨.ok [[("x", .num 1)]], "T1"⟩]
    [("x", JVal.num 1), ("timestamp", JVal.str "T1")] [("x", JVal.num 1)]
    (by decide) (by decide)

/-! ## Claim C2: error handling of the poll loops -/

/-- A `log_market_data` tick input on which the loop body runs to its sleep
without cancelling, erroring or breaking: the flag is down, the fetch
succeeds, and neither market-start-time break fires. -/
def lmOkTick (t : LMTick) : Prop :=
  t.cancelAtTop = false ∧ (∃ books, t.fetch = .ok books) ∧
    t.startTimeNone = false ∧ t.startReached = false

/-- Running `log_market_data` through a block of uneventful ticks only advances
the point and tick counters: the re-authentication count is untouched and the
loop reaches the remaining ticks. -/
theorem lmRun_ok_append (l : List LMTick) :
    ∀ (rest : List LMTick) (r p n : Nat), (∀ t ∈ l, lmOkTick t) →
      ∃ q, logMarketDataRun (l ++ rest) r p n
            = logMarketDataRun rest r q (n + l.length) := by
  induction l with
  | nil => intro rest r p n _; exact ⟨p, by simp⟩
  | cons t l ih =>
      intro rest r p n h
      obtain ⟨hc, ⟨books, hf⟩, hn, hs⟩ := h t (List.mem_cons_self t l)
      have hl : ∀ t' ∈ l, lmOkTick t' := fun t' ht' => h t' (List.mem_cons_of_mem t ht')
      have hlen : n + (t :: l).length = n + 1 + l.length := by
        simp only [List.length_cons]; omega
      rw [List.cons_append, hlen]
      simp only [logMarketDataRun, hc, hf, hn, hs, if_false, Bool.false_eq_true]
      cases books with
      | nil => exact ih rest r p (n + 1) hl
      | cons b bs =>
          exact ih rest r (if totalMatchedPos b = true then p + 1 else p) (n + 1) hl

/-- Claim C2: (amended). In `log_market_data`, a `BetfairError` whose text
contains `'403'`, raised on exactly one tick of an otherwise uneventful run,
triggers exactly one `handle_session_error` re-authentication, after which
the loop resumes normal ticking (every supplied tick starts and the run ends
only by running out of supplied ticks).  In `poll_market_book`, by contrast,
every fetch exception — `BetfairError` or not — is caught and logged and the
tick degrades to a no-op, with no re-authentication path at all. -/
theorem c2_fetch_error_handling (l1 l2 : List LMTick) (msg : String)
    (h1 : ∀ t ∈ l1, lmOkTick t) (h2 : ∀ t ∈ l2, lmOkTick t)
    (h403 : contains403 msg = true) :
    (logMarketData (l1 ++ ⟨false, .errBetfair msg, false, false⟩ :: l2)).reauths = 1 ∧
    (logMarketData (l1 ++ ⟨false, .errBetfair msg, false, false⟩ :: l2)).exit = .fuelOut ∧
    (logMarketData (l1 ++ ⟨false, .errBetfair msg, false, false⟩ :: l2)).ticksStarted
        = l1.length + 1 + l2.length ∧
    (∀ st (m ts : String), pollMarketBookTick st ⟨.errBetfair m, ts⟩ = st ∧
        pollMarketBookTick st ⟨.errOther m, ts⟩ = st) := by
  obtain ⟨q, hq⟩ := lmRun_ok_append l1 (⟨false, .errBetfair msg, false, false⟩ :: l2) 0 0 0 h1
  unfold logMarketData
  rw [hq]
  simp only [logMarketDataRun, h403, if_true, if_false, Bool.false_eq_true]
  obtain ⟨q', hq'⟩ := lmRun_ok_append l2 [] (0 + 1) q (0 + l1.length + 1) h2
  rw [List.append_nil] at hq'
  rw [hq']
  simp only [logMarketDataRun]
  refine ⟨trivial, trivial, by omega, ?_⟩
  intro st m ts
  exact ⟨rfl, rfl⟩

/-- Witness for C2 at a concrete run: one uneventful tick, then a
403-classified `BetfairError`, then another uneventful tick; the loop
re-authenticates once, all three ticks start, and the run ends by exhausting
its ticks. -/
theorem c2_fetch_error_handling_witness :
    (logMarketData [⟨false, .ok [], false, false⟩,
        ⟨false, .errBetfair "Status code error: 403", false, false⟩,
        ⟨false, .ok [], false, false⟩]).reauths = 1 ∧
    (logMarketData [⟨false, .ok [], false, false⟩,
        ⟨false, .errBetfair "Status code error: 403", false, false⟩,
        ⟨false, .ok [], false, false⟩]).exit = .fuelOut := by
  have h := c2_fetch_error_handling
    [⟨false, .ok [], false, false⟩] [⟨false, .ok [], false, false⟩]
    "Status code error: 403"
    (by intro t ht
        rw [List.mem_singleton] at ht
        subst ht
        exact ⟨rfl, ⟨[], rfl⟩, rfl, rfl⟩)
    (by intro t ht
        rw [List.mem_singleton] at ht
        subst ht
        exact ⟨rfl, ⟨[], rfl⟩, rfl, rfl⟩)
    (by decide)
  exact ⟨h.1, h.2.1⟩

/-- Claim C2: counterexample to the claim as stated: a `BetfairError` whose text
does not contain `'403'`, raised on the first tick, is re-raised by
`log_market_data` — the loop terminates with the error propagating
(`exit = raised "boom"`) and the second supplied tick never starts
(`ticksStarted = 1`), contradicting "the loop logs the error and continues to
the next tick". -/
theorem c2_non403_error_terminates_loop :
    logMarketData [⟨false, .errBetfair "boom", false, false⟩,
        ⟨false, .ok [], false, false⟩]
      = ⟨0, 0, 1, .raised "boom"⟩ := by
  decide

/-! ## Claims C3 and C4: the persisted known-id set -/

/-- The membership test the event poll loop performs
(`event.event.id not in known_event_ids`, negated). -/
def isKnown (ids : Finset String) (id : String) : Bool :=
  decide (id ∈ ids)

theorem foldl_markKnown (l : List String) :
    ∀ s : Finset String, l.foldl markKnown s = s ∪ l.toFinset := by
  induction l with
  | nil => intro s; simp
  | cons a l ih =>
      intro s
      rw [List.foldl_cons, ih]
      rw [List.toFinset_cons]
      rw [markKnown, Finset.insert_union, Finset.union_insert]

theorem load_save_roundtrip (s : Finset String) :
    loadKnownEventIds (saveKnownEventIds s) = .ok s := by
  show LoadOutcome.ok (Finset.sort (· ≤ ·) s).toFinset = LoadOutcome.ok s
  rw [Finset.sort_toFinset]

/-- Claim C3:. For every finite sequence of mark-known calls starting from an
empty set (the set saved after the insertions), a fresh
`_load_known_event_ids` returns exactly the set of distinct ids passed;
consequently two call sequences passing the same set of ids — in any order,
with any duplication — load back equal; and the persisted array
`["E1", "E2"]` loads to a set where `is_known("E1")` holds and
`is_known("E3")` does not. -/
theorem c3_mark_known_roundtrip :
    (∀ l : List String, loadKnownEventIds (runMarkKnown l) = .ok l.toFinset) ∧
    (∀ l l' : List String, l.toFinset = l'.toFinset →
        loadKnownEventIds (runMarkKnown l) = loadKnownEventIds (runMarkKnown l')) ∧
    (loadKnownEventIds (.jsonArr ["E1", "E2"]) = .ok {"E1", "E2"} ∧
      isKnown {"E1", "E2"} "E1" = true ∧ isKnown {"E1", "E2"} "E3" = false) := by
  have hload : ∀ l : List String, loadKnownEventIds (runMarkKnown l) = .ok l.toFinset := by
    intro l
    unfold runMarkKnown
    rw [foldl_markKnown, Finset.empty_union, load_save_roundtrip]
  refine ⟨hload, ?_, by decide, by decide, by decide⟩
  intro l l' h
  rw [hload, hload, h]

/-- Witness for C3: the call sequences `["E2", "E1", "E1"]` and `["E1", "E2"]`
pass the same distinct ids, and their persisted files load back equal. -/
theorem c3_mark_known_roundtrip_witness :
    loadKnownEventIds (runMarkKnown ["E2", "E1", "E1"])
      = loadKnownEventIds (runMarkKnown ["E1", "E2"]) :=
  c3_mark_known_roundtrip.2.1 ["E2", "E1", "E1"] ["E1", "E2"] (by decide)

/-- Claim C4: (amended). `_load_known_event_ids` returns the empty set when the
file is absent or its content fails JSON parsing (`json.JSONDecodeError` is
the only exception caught), and the set of elements of a stored JSON array of
strings; but it is not total: an OS-level read failure propagates, and so
does the `TypeError` raised by `set(...)` on parseable JSON that is not
iterable (e.g. a bare number). -/
theorem c4_load_fails_soft_only_for_parse_errors :
    loadKnownEventIds .absent = .ok ∅ ∧
    loadKnownEventIds .notJson = .ok ∅ ∧
    (∀ xs : List String, loadKnownEventIds (.jsonArr xs) = .ok xs.toFinset) ∧
    (∀ n : Int, loadKnownEventIds (.jsonNum n) = .raised "TypeError") ∧
    loadKnownEventIds .unreadable = .raised "OSError" :=
  ⟨rfl, rfl, fun _ => rfl, fun _ => rfl, rfl⟩

/-- Claim C4: counterexample to the claim as stated: a storage file holding the
valid JSON value `5` — content that is not a JSON array of strings — makes
`set(json.load(f))` raise a `TypeError` that `_load_known_event_ids` does not
catch, so load propagates an error instead of returning a set. -/
theorem c4_load_raises_on_json_number :
    loadKnownEventIds (.jsonNum 5) = .raised "TypeError" := by
  decide

/-! ## Claim C5: cancellation latency of the inter-tick sleep -/

/-- When the terminate event is set at time 1 — just after the top-of-tick
check at time 0 — the loop only returns at the end of the full uninterrupted
sleep, at time `s`, so the shutdown latency is `s - 1`. -/
theorem shutdownLatency_just_after_check (s : Nat) (h : 1 ≤ s) :
    shutdownLatency s 1 = s - 1 := by
  unfold shutdownLatency
  show cancelReturnTime s 1 (1 + 1) 0 - 1 = s - 1
  rw [cancelReturnTime]
  rw [if_neg (by omega)]
  rw [cancelReturnTime]
  rw [if_pos (by omega)]
  omega

/-- Claim C5: (amended). In `log_market_data`, the cancellation flag is observed
only by the `while not terminate_event.is_set()` check at the top of each
tick; the inter-tick `time.sleep` does not observe the event, so a
cancellation signalled during the sleep is served only when the full sleep
has elapsed.  The resulting shutdown latency grows with the sleep interval —
for every candidate bound `C` there is an interval and a signal time whose
latency exceeds `C` — rather than being one tick's in-flight work plus a
bounded constant. -/
theorem c5_shutdown_latency_unbounded :
    ∀ C : Nat, ∃ s t : Nat, 1 ≤ s ∧ C < shutdownLatency s t := by
  intro C
  refine ⟨C + 2, 1, by omega, ?_⟩
  rw [shutdownLatency_just_after_check (C + 2) (by omega)]
  omega

/-- Claim C5: counterexample to the claim as stated: there is no constant bound
on the shutdown latency of the embedded loop — cancellation signalled right
after a tick check waits out the whole sleep, so the latency reaches `s - 1`
for a sleep of `s` units, contradicting "returns within one tick's in-flight
work plus a bounded constant, and the sleep itself is interruptible by
cancellation". -/
theorem c5_no_constant_shutdown_bound :
    ¬ ∃ C : Nat, ∀ s t : Nat, 1 ≤ s → shutdownLatency s t ≤ C := by
  rintro ⟨C, h⟩
  have h1 := h (C + 2) 1 (by omega)
  rw [shutdownLatency_just_after_check (C + 2) (by omega)] at h1
  omega

/-! ## Claim C6: releasing the session -/

/-- Claim C6: (amended). `BetfairAPI.logout` never propagates an exception: both
the `BetfairError` and the generic `Exception` arm only log.  But it is not a
guarded single-shot release: every call invokes the underlying
`client.logout()` again, and on `poll_tick.main`'s normal path the underlying
logout is performed twice — once by `poll_market_book`'s `finally` and once
by `main`'s own `finally` — with no double-logout guard. -/
theorem c6_logout_never_raises_but_unguarded :
    (∀ (s : Session) (b : ClientBehavior), (apiLogout s b).2 = none) ∧
    (∀ (s : Session) (b1 b2 : ClientBehavior),
        (pollTickMain s b1 b2).clientLogoutCalls = s.clientLogoutCalls + 2) := by
  constructor
  · intro s b; cases b <;> rfl
  · intro s b1 b2; cases b1 <;> cases b2 <;> rfl

/-- Claim C6: counterexample to the claim as stated: on `poll_tick.main`'s normal
path the underlying `client.logout()` is performed twice, not once, and the
second `BetfairAPI.logout` call is not a no-op — it repeats the remote
logout — so the shared session is not guarded against double-logout. -/
theorem c6_double_logout_in_poll_tick :
    (pollTickMain ⟨true, 0⟩ .succeeds .succeeds).clientLogoutCalls = 2 ∧
    (apiLogout (apiLogout ⟨true, 0⟩ .succeeds).1 .succeeds).1
      ≠ (apiLogout ⟨true, 0⟩ .succeeds).1 := by
  decide

/-! ## Claim C7: append-only file sink with timestamped records -/

theorem hasKey_eventDict (e : Event) (ts : String) :
    hasKey (eventDict e ts) "timestamp" = true := by
  rfl

/-- One `poll_market_book` tick either leaves the output file untouched or
appends exactly one record, and any appended record carries the injected
`'timestamp'` key. -/
theorem mbTick_file_append (st : MBState) (t : MBTick) :
    ∃ extra, (pollMarketBookTick st t).file = st.file ++ extra ∧
      ∀ d ∈ extra, hasKey d "timestamp" = true := by
  unfold pollMarketBookTick
  cases t.fetch with
  | errBetfair msg => exact ⟨[], by simp⟩
  | errOther msg => exact ⟨[], by simp⟩
  | ok books =>
      cases books with
      | nil => exact ⟨[], by simp⟩
      | cons book rest =>
          dsimp only
          split
          · refine ⟨[dinsert book "timestamp" (.str t.ts)], rfl, ?_⟩
            intro d hd
            rw [List.mem_singleton] at hd
            subst hd
            exact hasKey_dinsert _ _ _
          · exact ⟨[], by simp⟩

/-- One `poll_new_events` tick appends exactly the new events' record lines,
in fetch order, each carrying the `'timestamp'` key. -/
theorem peTick_file_append (st : PEState) (t : PETick) :
    ∃ extra, (pollNewEventsTick st t).file = st.file ++ extra ∧
      ∀ d ∈ extra, hasKey d "timestamp" = true := by
  unfold pollNewEventsTick
  cases hf : listEvents t.fetch with
  | none => exact ⟨[], by simp⟩
  | some evs =>
      dsimp only
      split
      · exact ⟨[], by simp⟩
      · split
        · exact ⟨[], by simp⟩
        · refine ⟨_, rfl, ?_⟩
          intro d hd
          rw [List.mem_map] at hd
          obtain ⟨e, _, he⟩ := hd
          rw [← he]
          exact hasKey_eventDict e t.ts

theorem mbRun_file_append (ticks : List MBTick) :
    ∀ st : MBState, ∃ extra, (pollMarketBookRun st ticks).file = st.file ++ extra ∧
      ∀ d ∈ extra, hasKey d "timestamp" = true := by
  induction ticks with
  | nil => intro st; exact ⟨[], by simp [pollMarketBookRun]⟩
  | cons t ticks ih =>
      intro st
      obtain ⟨e1, he1, hts1⟩ := mbTick_file_append st t
      obtain ⟨e2, he2, hts2⟩ := ih (pollMarketBookTick st t)
      refine ⟨e1 ++ e2, ?_, ?_⟩
      · show (pollMarketBookRun (pollMarketBookTick st t) ticks).file = _
        rw [he2, he1, List.append_assoc]
      · intro d hd
        rcases List.mem_append.mp hd with h | h
        · exact hts1 d h
        · exact hts2 d h

theorem peRun_file_append (ticks : List PETick) :
    ∀ st : PEState, ∃ extra, (pollNewEventsRun st ticks).file = st.file ++ extra ∧
      ∀ d ∈ extra, hasKey d "timestamp" = true := by
  induction ticks with
  | nil => intro st; exact ⟨[], by simp [pollNewEventsRun]⟩
  | cons t ticks ih =>
      intro st
      obtain ⟨e1, he1, hts1⟩ := peTick_file_append st t
      obtain ⟨e2, he2, hts2⟩ := ih (pollNewEventsTick st t)
      refine ⟨e1 ++ e2, ?_, ?_⟩
      · show (pollNewEventsRun (pollNewEventsTick st t) ticks).file = _
        rw [he2, he1, List.append_assoc]
      · intro d hd
        rcases List.mem_append.mp hd with h | h
        · exact hts1 d h
        · exact hts2 d h

/-- Claim C7:. Both file sinks are append-only: over any run of either poll loop,
the output file's prior contents remain unchanged as a prefix and every tick's
emissions are appended after them in emission order (each `f.write` appends
exactly one `json.dumps(record) + '\n'` line, modelled as one list entry),
and every appended record carries a `'timestamp'` field. -/
theorem c7_sink_append_only (f0 : List Dict) :
    (∀ ticks : List MBTick, ∃ extra,
        (pollMarketBookRun (mbInit f0) ticks).file = f0 ++ extra ∧
        ∀ d ∈ extra, hasKey d "timestamp" = true) ∧
    (∀ (s0 : Finset String) (ticks : List PETick), ∃ extra,
        (pollNewEventsRun (peInit s0 f0) ticks).file = f0 ++ extra ∧
        ∀ d ∈ extra, hasKey d "timestamp" = true) :=
  ⟨fun ticks => mbRun_file_append ticks (mbInit f0),
   fun s0 ticks => peRun_file_append ticks (peInit s0 f0)⟩

/-- Witness for C7 at a concrete run: starting from a file already holding one
record, a two-tick `poll_market_book` run leaves that record as the file's
prefix and any appended records carry the `'timestamp'` key. -/
theorem c7_sink_append_only_witness :
    ∃ extra,
      (pollMarketBookRun (mbInit [[("old", JVal.num 0)]])
        [⟨.ok [[("x", .num 1)]], "T1"⟩, ⟨.ok [[("x", .num 1)]], "T2"⟩]).file
        = [[("old", JVal.num 0)]] ++ extra ∧
      ∀ d ∈ extra, hasKey d "timestamp" = true :=
  (c7_sink_append_only [[("old", JVal.num 0)]]).1
    [⟨.ok [[("x", .num 1)]], "T1"⟩, ⟨.ok [[("x", .num 1)]], "T2"⟩]

/-! ## Claim C9: `list_events` failures and the event poll loop -/

/-- Claim C9:. `list_events` catches every failure of the underlying client call
and returns `None` — never raising and never returning a partial list (a
successful call returns the full list) — and the event poll loop treats a
`None` result exactly like an empty result: no emission, no change to the
known-id set, no durable operation, and the run proceeds with the next tick. -/
theorem c9_list_events_failure_is_noop :
    (∀ msg : String, listEvents (.err msg) = none) ∧
    (∀ evs : List Event, listEvents (.ok evs) = some evs) ∧
    (∀ (st : PEState) (msg ts : String),
        pollNewEventsTick st ⟨.err msg, ts⟩ = st ∧
        pollNewEventsTick st ⟨.ok [], ts⟩ = st) ∧
    (∀ (st : PEState) (msg ts : String) (rest : List PETick),
        pollNewEventsRun st (⟨.err msg, ts⟩ :: rest) = pollNewEventsRun st rest) := by
  refine ⟨fun _ => rfl, fun _ => rfl, fun st msg ts => ⟨rfl, rfl⟩, ?_⟩
  intro st msg ts rest
  rfl

/-! ## Claim C10: records are written before their ids are persisted as known -/

theorem writtenIds_append (a b : List PEOp) :
    writtenIds (a ++ b) = writtenIds a ∪ writtenIds b := by
  induction a with
  | nil => simp [writtenIds]
  | cons op rest ih =>
      cases op with
      | writeRecord id => simp [writtenIds, ih, Finset.insert_union]
      | persistKnown ids => simp [writtenIds, ih]

theorem storedAfter_append (s0 : Finset String) (a b : List PEOp) :
    storedAfter s0 (a ++ b) = storedAfter (storedAfter s0 a) b := by
  unfold storedAfter
  exact List.foldl_append _ _ _ _

theorem storedAfter_writes_only (S : Finset String) (p : List PEOp)
    (h : ∀ op ∈ p, ∃ id, op = PEOp.writeRecord id) : storedAfter S p = S := by
  induction p with
  | nil => rfl
  | cons op rest ih =>
      obtain ⟨id, rfl⟩ := h op (List.mem_cons_self op rest)
      show storedAfter S rest = S
      exact ih (fun op' hop' => h op' (List.mem_cons_of_mem _ hop'))

theorem writtenIds_map_writeRecord (ids : List String) :
    writtenIds (ids.map PEOp.writeRecord) = ids.toFinset := by
  induction ids with
  | nil => rfl
  | cons id rest ih => simp [writtenIds, ih]

/-- The crash-safety invariant of a `poll_new_events` run that loaded `s0`
from durable storage: the in-memory known set only ever contains initially
known ids and ids whose record has been written, and at every prefix of the
durable-operation trace (every possible crash point) the persisted known set
contains only initially known ids and ids whose record was written before. -/
def peInvariant (s0 : Finset String) (st : PEState) : Prop :=
  st.knownIds ⊆ s0 ∪ writtenIds st.trace ∧
    ∀ p q, p ++ q = st.trace → storedAfter s0 p ⊆ s0 ∪ writtenIds p

/-- Extending a trace by a block of record writes followed by one persist of
`known ∪ ids.toFinset` preserves the crash-safety invariant. -/
theorem peInvariant_extend {s0 known : Finset String} {T : List PEOp}
    (hknown : known ⊆ s0 ∪ writtenIds T)
    (hpre : ∀ p q, p ++ q = T → storedAfter s0 p ⊆ s0 ∪ writtenIds p)
    (ids : List String) :
    (known ∪ ids.toFinset ⊆ s0 ∪
        writtenIds (T ++ ids.map PEOp.writeRecord
          ++ [PEOp.persistKnown (known ∪ ids.toFinset)])) ∧
    ∀ p q, p ++ q = T ++ ids.map PEOp.writeRecord
          ++ [PEOp.persistKnown (known ∪ ids.toFinset)] →
      storedAfter s0 p ⊆ s0 ∪ writtenIds p := by
  set K := known ∪ ids.toFinset with hK
  set W := ids.map PEOp.writeRecord with hW
  have hWmem : ∀ op ∈ W, ∃ id, op = PEOp.writeRecord id := by
    intro op hop
    rw [hW, List.mem_map] at hop
    obtain ⟨id, _, hid⟩ := hop
    exact ⟨id, hid.symm⟩
  have hwid : writtenIds (T ++ W ++ [PEOp.persistKnown K])
      = writtenIds T ∪ ids.toFinset := by
    rw [writtenIds_append, writtenIds_append, hW, writtenIds_map_writeRecord]
    show writtenIds T ∪ ids.toFinset ∪ writtenIds [PEOp.persistKnown K] = _
    rw [show writtenIds [PEOp.persistKnown K] = ∅ from rfl, Finset.union_empty]
  have hTstored : storedAfter s0 T ⊆ s0 ∪ writtenIds T :=
    hpre T [] (List.append_nil T)
  have hKsub : K ⊆ s0 ∪ writtenIds (T ++ W ++ [PEOp.persistKnown K]) := by
    rw [hwid, hK]
    apply Finset.union_subset
    · exact hknown.trans (Finset.union_subset_union_right Finset.subset_union_left)
    · exact Finset.subset_union_right.trans Finset.subset_union_right
  refine ⟨hKsub, ?_⟩
  intro p q hpq
  rw [List.append_assoc] at hpq
  rcases List.append_eq_append_iff.mp hpq with ⟨p', hp', _⟩ | ⟨t', hp', hq'⟩
  · -- p is a prefix of T
    exact hpre p p' hp'.symm
  · -- p = T ++ t' with W ++ [persist K] = t' ++ q
    subst hp'
    rcases List.append_eq_append_iff.mp hq' with ⟨w', ht', hq''⟩ | ⟨w', hw', _⟩
    · -- t' = W ++ w' with [persist K] = w' ++ q
      subst ht'
      cases w' with
      | nil =>
          have htw : ∀ op ∈ W ++ ([] : List PEOp), ∃ id, op = PEOp.writeRecord id := by
            intro op hop
            rw [List.append_nil] at hop
            exact hWmem op hop
          rw [storedAfter_append, storedAfter_writes_only _ _ htw, writtenIds_append]
          exact hTstored.trans
            (Finset.union_subset_union_right Finset.subset_union_left)
      | cons x xs =>
          rw [List.cons_append] at hq''
          injection hq'' with hx1 hx2
          obtain ⟨rfl, rfl⟩ := List.append_eq_nil.mp hx2.symm
          subst hx1
          rw [← List.append_assoc, storedAfter_append]
          rw [show storedAfter (storedAfter s0 (T ++ W)) [PEOp.persistKnown K] = K from rfl]
          exact hKsub
    · -- W = t' ++ w' : t' is a prefix of W, only record writes, no persist
      have htw : ∀ op ∈ t', ∃ id, op = PEOp.writeRecord id := by
        intro op hop
        refine hWmem op ?_
        rw [hw']
        exact List.mem_append.mpr (Or.inl hop)
      rw [storedAfter_append, storedAfter_writes_only _ _ htw, writtenIds_append]
      exact hTstored.trans
        (Finset.union_subset_union_right Finset.subset_union_left)

/-- One `poll_new_events` tick preserves the crash-safety invariant. -/
theorem peInvariant_tick {s0 : Finset String} {st : PEState}
    (h : peInvariant s0 st) (t : PETick) :
    peInvariant s0 (pollNewEventsTick st t) := by
  obtain ⟨hknown, hpre⟩ := h
  unfold pollNewEventsTick
  cases hf : listEvents t.fetch with
  | none => exact ⟨hknown, hpre⟩
  | some evs =>
      dsimp only
      split
      · exact ⟨hknown, hpre⟩
      · split
        · exact ⟨hknown, hpre⟩
        · have hmap : List.map (fun e => PEOp.writeRecord e.id)
              (evs.filter (fun e => decide (e.id ∉ st.knownIds)))
              = ((evs.filter (fun e => decide (e.id ∉ st.knownIds))).map
                  Event.id).map PEOp.writeRecord := by
            rw [List.map_map]
            rfl
          constructor
          · show st.knownIds ∪ _ ⊆ _
            rw [hmap]
            exact (peInvariant_extend hknown hpre _).1
          · intro p q hpq
            rw [hmap] at hpq
            exact (peInvariant_extend hknown hpre _).2 p q hpq

theorem peInvariant_run {s0 : Finset String} {st : PEState}
    (h : peInvariant s0 st) (ticks : List PETick) :
    peInvariant s0 (pollNewEventsRun st ticks) := by
  induction ticks generalizing st with
  | nil => exact h
  | cons t ticks ih => exact ih (peInvariant_tick h t)

/-- Claim C10:. Within every tick of `poll_new_events` that finds new events, the
record lines are appended to the output file strictly before the ids are
added to the known set and persisted; consequently, for every prefix of the
durable-operation trace of any run (every possible crash point), the
on-disk known-id file contains only ids that were already known when the run
started or whose record line had already been written — a crash can cause
re-emission on restart, never a persisted-known id with no written record. -/
theorem c10_write_before_persist (s0 : Finset String) (f0 : List Dict)
    (ticks : List PETick) (p : List PEOp)
    (hp : listPre p (pollNewEventsRun (peInit s0 f0) ticks).trace) :
    storedAfter s0 p ⊆ s0 ∪ writtenIds p := by
  have hinit : peInvariant s0 (peInit s0 f0) := by
    constructor
    · exact Finset.subset_union_left
    · intro p' q' hpq
      obtain ⟨rfl, rfl⟩ := List.append_eq_nil.mp hpq
      exact Finset.subset_union_left
  obtain ⟨q, hq⟩ := hp
  exact (peInvariant_run hinit ticks).2 p q hq

/-- Witness for C10 at a concrete run: one tick discovering the new event
`"E1"` produces the trace `[writeRecord "E1", persistKnown {"E1"}]`; crashing
after the write but before the persist leaves the on-disk known set (still
empty) within the written ids. -/
theorem c10_write_before_persist_witness :
    storedAfter ∅ [PEOp.writeRecord "E1"]
      ⊆ ∅ ∪ writtenIds [PEOp.writeRecord "E1"] :=
  c10_write_before_persist ∅ [] [⟨.ok [⟨"E1", "N", "GB", "C", "M"⟩], "T"⟩]
    [PEOp.writeRecord "E1"] ⟨[PEOp.persistKnown {"E1"}], by decide⟩

end BetRecorder
